import Mathlib

/-!
Verification of the Rankmaniac job-orchestration code (rankmaniac.py,
grader.py, manage.py) against its natural-language specification.

The Python source is shallowly embedded: remote step statuses become a
`List Step`, the S3 object store becomes a function from key names to
contents, and the mutable `Rankmaniac` object becomes an explicit state
record transformed by the public operations.  Loops are embedded as
structural recursions whose extra `Nat` argument counts the remaining
loop iterations exactly, so that every definition evaluates by kernel
reduction.
-/

namespace Rankmaniac

/-- State of one remote job-flow step, as reported by `describe()`
(rankmaniac.py lines 278-296).  The code only ever compares a step state
against the literal `'COMPLETED'`. -/
inductive StepState
  | pending
  | running
  | completed
  | failed
deriving DecidableEq

/-- One entry of `describe().steps`: the step state together with the
parsed `startdatetime` and `enddatetime` (in seconds). -/
structure Step where
  state : StepState
  startTime : Int
  endTime : Int
deriving DecidableEq

/-- Embedding of the `while` loop of `_get_last_process_step_iter_no`
(rankmaniac.py lines 314-322): starting at `i`, repeat while
`i < len(steps)` and `steps[i].state == 'COMPLETED'`, stepping `i` by 2.
The first argument counts remaining loop iterations; it is called with
fuel `steps.length`, which exceeds the number of iterations the loop can
perform (each iteration increases `i` by 2 and the loop stops as soon as
`i ≥ steps.length`), so the fuel-exhaustion branch is never the one that
determines the result. -/
def scanGo (steps : List Step) : Nat → Nat → Nat
  | 0, i => i
  | fuel + 1, i =>
    if h : i < steps.length then
      if (steps.get ⟨i, h⟩).state ≠ .completed then i
      else scanGo steps fuel (i + 2)
    else i

/-- Embedding of `_get_last_process_step_iter_no` (rankmaniac.py lines
308-324): run the scan from index 1 and return `i / 2 - 1` (Python 2
floor division on a nonnegative `i`). -/
def lastProcessStepIterNo (steps : List Step) : Int :=
  ((scanGo steps steps.length 1 : Nat) : Int) / 2 - 1

/-- The sub-list of statuses at odd offsets (the process steps, one per
iteration: rank at even offset, process at odd offset). -/
def procStatuses : List Step → List Step
  | [] => []
  | [_] => []
  | _ :: b :: t => b :: procStatuses t

/-- Number of leading consecutive `completed` entries among the process
(odd-offset) statuses. -/
def completedProcPrefixLen (steps : List Step) : Nat :=
  ((procStatuses steps).takeWhile (fun s => decide (s.state = .completed))).length

/-- The scan rule exactly as the claim words it: read ALL statuses
sequentially from the start, stop at the first entry whose state is not
`completed`, and report the iteration index of the most recent process
step inside that fully-completed front segment. -/
def claimScanIterNo (steps : List Step) : Int :=
  (((steps.takeWhile (fun s => decide (s.state = .completed))).length : Nat) : Int) / 2 - 1

theorem scanGo_of_ge (steps : List Step) (fuel i : Nat) (h : steps.length ≤ i) :
    scanGo steps fuel i = i := by
  cases fuel with
  | zero => rfl
  | succ fuel => simp [scanGo, Nat.not_lt.mpr h]

theorem scanGo_cons2 (a b : Step) (t : List Step) :
    ∀ (fuel i : Nat), scanGo (a :: b :: t) fuel (i + 2) = scanGo t fuel i + 2 := by
  intro fuel
  induction fuel with
  | zero => intro i; rfl
  | succ fuel ih =>
    intro i
    simp only [scanGo, List.length_cons]
    by_cases h : i < t.length
    · rw [dif_pos (show i + 2 < t.length + 1 + 1 by omega), dif_pos h]
      have hget : (a :: b :: t).get ⟨i + 2, show i + 2 < t.length + 1 + 1 by omega⟩ =
          t.get ⟨i, h⟩ := rfl
      rw [hget]
      by_cases hs : t[i].state = StepState.completed
      · rw [if_neg (by simp [hs]), if_neg (by simp [hs])]
        exact ih (i + 2)
      · rw [if_pos (by simp [hs]), if_pos (by simp [hs])]
    · rw [dif_neg (show ¬ i + 2 < t.length + 1 + 1 by omega), dif_neg h]

theorem scanGo_main :
    ∀ (t : List Step) (fuel : Nat), t.length ≤ fuel + 1 →
      scanGo t fuel 1 = 2 * completedProcPrefixLen t + 1
  | [], fuel, _ => by
    rw [scanGo_of_ge _ _ _ (by simp)]
    simp [completedProcPrefixLen, procStatuses]
  | [a], fuel, _ => by
    rw [scanGo_of_ge _ _ _ (by simp)]
    simp [completedProcPrefixLen, procStatuses]
  | a :: b :: t, fuel, hf => by
    obtain ⟨fuel, rfl⟩ : ∃ f, fuel = f + 1 := by
      refine ⟨fuel - 1, ?_⟩
      simp only [List.length_cons] at hf
      omega
    simp only [scanGo, List.length_cons]
    rw [dif_pos (show 1 < t.length + 1 + 1 by omega)]
    have hget : (a :: b :: t).get ⟨1, show 1 < t.length + 1 + 1 by omega⟩ = b := rfl
    rw [hget]
    by_cases hs : b.state = .completed
    · rw [if_neg (by simp [hs])]
      rw [show (1 : Nat) + 2 = 1 + 2 from rfl, scanGo_cons2 a b t fuel 1,
        scanGo_main t fuel (by simp only [List.length_cons] at hf; omega)]
      have hlen : completedProcPrefixLen (a :: b :: t) = completedProcPrefixLen t + 1 := by
        simp [completedProcPrefixLen, procStatuses, List.takeWhile_cons, hs]
      rw [hlen]
      omega
    · rw [if_pos hs]
      have hlen : completedProcPrefixLen (a :: b :: t) = 0 := by
        simp [completedProcPrefixLen, procStatuses, List.takeWhile_cons, hs]
      rw [hlen]

theorem lastProcessStepIterNo_eq (steps : List Step) :
    lastProcessStepIterNo steps = (completedProcPrefixLen steps : Int) - 1 := by
  unfold lastProcessStepIterNo
  rw [scanGo_main steps steps.length (by omega)]
  push_cast
  omega

/-- The `procStatuses` sub-list has half the length of the full list. -/
theorem procStatuses_length :
    ∀ steps : List Step, (procStatuses steps).length = steps.length / 2
  | [] => rfl
  | [_] => by simp [procStatuses]
  | a :: b :: t => by
    simp only [procStatuses, List.length_cons, procStatuses_length t]
    omega

theorem completedProcPrefixLen_le (steps : List Step) :
    completedProcPrefixLen steps ≤ steps.length / 2 := by
  have h := (List.takeWhile_sublist
    (fun s => decide (s.state = StepState.completed)) (l := procStatuses steps)).length_le
  calc completedProcPrefixLen steps ≤ (procStatuses steps).length := h
    _ = steps.length / 2 := procStatuses_length steps

/-- C1 (amended): the index of the most recent completed process step is
determined solely by the odd-offset (process) statuses: it is the number
of leading consecutive `completed` process entries minus one.  The states
of even-offset (rank) entries are never consulted. -/
theorem scan_checks_only_process_entries (steps : List Step) :
    lastProcessStepIterNo steps = (completedProcPrefixLen steps : Int) - 1 :=
  lastProcessStepIterNo_eq steps

/-- C1 (counterexample): on the status list `[failed, completed]` the code
reports iteration 0 as having a completed process step, whereas the
claimed scan rule (stop at the first non-completed entry of the whole
sequence) reports that none exists. -/
theorem scan_ignores_failed_rank_step :
    lastProcessStepIterNo [⟨.failed, 0, 0⟩, ⟨.completed, 0, 0⟩] = 0 ∧
    claimScanIterNo [⟨.failed, 0, 0⟩, ⟨.completed, 0, 0⟩] = -1 ∧
    lastProcessStepIterNo [⟨.failed, 0, 0⟩, ⟨.completed, 0, 0⟩] ≠
      claimScanIterNo [⟨.failed, 0, 0⟩, ⟨.completed, 0, 0⟩] := by
  refine ⟨by decide, by decide, by decide⟩

/-- Embedding of `_get_default_outdir` (rankmaniac.py lines 326-336):
`os.path.join(str(iter_no), name, '')`, i.e. `iter_no/name/` with the
trailing slash. -/
def get_default_outdir (name : String) (iterNo : Int) : String :=
  toString iterNo ++ "/" ++ name ++ "/"

/-- Embedding of Python's `str.startswith`: the candidate equals the
leading segment of the subject of the same length. -/
def startswith (s pre : String) : Bool :=
  decide (s.toList.take pre.toList.length = pre.toList)

/-- The S3 key read by `is_done` (rankmaniac.py line 223):
`'%s/%s/%s' % (team_id, outdir, 'part-00000')` where `outdir` already
carries a trailing slash. -/
def partKeyname (team : String) (iterNo : Int) : String :=
  team ++ "/" ++ get_default_outdir "process" iterNo ++ "/" ++ "part-00000"

/-- Embedding of `is_done` (rankmaniac.py lines 207-229).  The S3 bucket
is abstracted as `store`, mapping a key name to the first chunk of its
contents (the `key.next()` read). -/
def is_done (team : String) (store : String → String) (steps : List Step) : Bool :=
  let iterNo := lastProcessStepIterNo steps
  if iterNo < 0 then false
  else startswith (store (partKeyname team iterNo)) "FinalRank"

/-- C2: `is_done` is false when no iteration has a completed process step
(scan index below zero) and in particular when the job has no steps at
all; otherwise it is true exactly when the content of the first output
key of the most recent completed iteration's process output begins with
the literal sentinel `FinalRank`, which is therefore the sole completion
signal. -/
theorem is_done_sentinel_spec (team : String) (store : String → String)
    (steps : List Step) :
    (lastProcessStepIterNo steps < 0 → is_done team store steps = false) ∧
    (steps = [] → is_done team store steps = false) ∧
    (0 ≤ lastProcessStepIterNo steps →
      (is_done team store steps = true ↔
        "FinalRank".toList <+:
          (store (partKeyname team (lastProcessStepIterNo steps))).toList)) := by
  refine ⟨fun h => ?_, fun h => ?_, fun h => ?_⟩
  · simp only [is_done, if_pos h]
  · subst h
    have hneg : lastProcessStepIterNo ([] : List Step) = -1 := rfl
    simp [is_done, hneg]
  · simp only [is_done, if_neg (not_lt.mpr h), startswith, decide_eq_true_eq]
    constructor
    · intro hp
      exact hp ▸ List.take_prefix _ _
    · intro hp
      exact (List.prefix_iff_eq_take.mp hp).symm

theorem is_done_sentinel_spec_witness :
    0 ≤ lastProcessStepIterNo [⟨.completed, 0, 1⟩, ⟨.completed, 1, 2⟩] ∧
    is_done "teamx" (fun _ => "FinalRank\t1")
      [⟨.completed, 0, 1⟩, ⟨.completed, 1, 2⟩] = true := by
  refine ⟨by decide, ?_⟩
  exact ((is_done_sentinel_spec "teamx" (fun _ => "FinalRank\t1")
    [⟨.completed, 0, 1⟩, ⟨.completed, 1, 2⟩]).2.2 (by decide)).mpr (by decide)

/-- Modelled from the spec: grader.py reads the cached attribute
`self._last_process_step_iter_no` (set as a side effect of an `is_done`
variant that src/rankmaniac.py does not define — its `is_done` takes no
`jobdesc` argument and sets no such attribute).  Per spec sections 4.2
and 4.4 this cache holds "the index of the most recent fully-Completed
process step" obtained by the submission-order scan, i.e. exactly
`lastProcessStepIterNo` applied to the job's step statuses. -/
def lastProcessStepIterNoCached (steps : List Step) : Int :=
  lastProcessStepIterNo steps

/-- The `max_step` computation of `_compute_step_times` (grader.py lines
241-243): `0` by default, `2 * iter_no + 1` when the cached iteration
number is nonnegative. -/
def maxStep (steps : List Step) : Nat :=
  if 0 ≤ lastProcessStepIterNoCached steps then
    2 * (lastProcessStepIterNoCached steps).toNat + 1
  else 0

/-- Embedding of the `while i <= max_step` loop of `_compute_step_times`
(grader.py lines 245-261).  The first `Nat` argument is the exact number
of remaining loop entries `max_step + 1 - i`; `none` models the
`IndexError` raised by `steps[i]` when the index is out of range, and the
early `some []` models the `break` on a non-completed step. -/
def stepTimesGo (steps : List Step) : Nat → Nat → Option (List Int)
  | 0, _ => some []
  | r + 1, i =>
    match steps.get? i with
    | none => none
    | some st =>
      if st.state ≠ .completed then some []
      else (stepTimesGo steps r (i + 1)).map
        (fun rest => (st.endTime - st.startTime) :: rest)

/-- Embedding of `_compute_step_times` (grader.py lines 225-261), with
the remote job description abstracted to its step list. -/
def computeStepTimes (steps : List Step) : Option (List Int) :=
  stepTimesGo steps (maxStep steps + 1) 0

/-- Embedding of `compute_job_time` (grader.py lines 110-120): the sum of
the per-step durations. -/
def computeJobTime (steps : List Step) : Option Int :=
  (computeStepTimes steps).map (fun ts => ts.sum)

/-- Bool form of the completion test, for `takeWhile`. -/
def isCompletedB (s : Step) : Bool := decide (s.state = .completed)

/-- The duration of a step. -/
def dur (s : Step) : Int := s.endTime - s.startTime

/-- Sum of durations over the leading run of consecutive completed steps,
capped at step offset `maxStep steps` (the code's cap: `2*iter+1` when a
completed process step exists, otherwise offset 0). -/
def amendedElapsed (steps : List Step) : Int :=
  (((steps.take (maxStep steps + 1)).takeWhile isCompletedB).map dur).sum

/-- The elapsed time exactly as the claim words it: zero when no process
step is completed, otherwise the truncated sum up to and including the
most recent completed process step. -/
def claimElapsed (steps : List Step) : Int :=
  if 0 ≤ lastProcessStepIterNoCached steps then amendedElapsed steps else 0

theorem stepTimesGo_eq (steps : List Step) (M : Nat) (hM : M < steps.length) :
    ∀ (r i : Nat), i + r = M + 1 →
      stepTimesGo steps r i =
        some ((((steps.drop i).take r).takeWhile isCompletedB).map dur) := by
  intro r
  induction r with
  | zero => intro i _; simp [stepTimesGo]
  | succ r ih =>
    intro i hi
    have hlt : i < steps.length := by omega
    simp only [stepTimesGo]
    rw [List.get?_eq_get hlt]
    dsimp only
    simp only [List.get_eq_getElem]
    rw [List.drop_eq_getElem_cons hlt, List.take_succ_cons]
    by_cases hs : steps[i].state = StepState.completed
    · rw [if_neg (by simp [hs]), ih (i + 1) (by omega)]
      rw [List.takeWhile_cons_of_pos (by simp [isCompletedB, hs]), List.map_cons]
      rfl
    · rw [if_pos (by simp [hs])]
      rw [List.takeWhile_cons_of_neg (by simp [isCompletedB, hs])]
      rfl

theorem maxStep_lt_length (steps : List Step) (h : steps ≠ []) :
    maxStep steps < steps.length := by
  have hpos : 0 < steps.length := List.length_pos.mpr h
  unfold maxStep lastProcessStepIterNoCached
  by_cases h0 : 0 ≤ lastProcessStepIterNo steps
  · rw [if_pos h0]
    have heq := lastProcessStepIterNo_eq steps
    have hle := completedProcPrefixLen_le steps
    have h1 : 1 ≤ completedProcPrefixLen steps := by omega
    have h2 : (lastProcessStepIterNo steps).toNat = completedProcPrefixLen steps - 1 := by
      omega
    rw [h2]
    omega
  · rw [if_neg h0]
    omega

/-- C4 (amended): for a job with a nonempty step list, the computed
elapsed time is the sum of durations over the leading run of consecutive
`completed` steps, capped at offset `2*iter+1` when a most recent
completed process step exists and at offset `0` otherwise — so a
completed first rank step contributes even when no process step has
completed yet; a non-completed step mid-sequence truncates the sum. -/
theorem compute_job_time_amended (steps : List Step) (h : steps ≠ []) :
    computeJobTime steps = some (amendedElapsed steps) := by
  have hM := maxStep_lt_length steps h
  unfold computeJobTime computeStepTimes
  rw [stepTimesGo_eq steps (maxStep steps) hM (maxStep steps + 1) 0 (by omega)]
  simp [amendedElapsed]

/-- C4 (witness, spec Scenario E): step sequence
`[completed, completed, running, pending]` with durations 3 and 4 gives
elapsed time 7, the sum of the two completed steps' durations. -/
theorem compute_job_time_amended_witness :
    ([⟨.completed, 0, 3⟩, ⟨.completed, 3, 7⟩, ⟨.running, 0, 0⟩, ⟨.pending, 0, 0⟩] :
        List Step) ≠ [] ∧
    computeJobTime
      [⟨.completed, 0, 3⟩, ⟨.completed, 3, 7⟩, ⟨.running, 0, 0⟩, ⟨.pending, 0, 0⟩] =
      some 7 := by
  refine ⟨by decide, ?_⟩
  rw [compute_job_time_amended _ (by decide)]
  decide

/-- C4 (counterexample): with step list `[completed (duration 5),
running]` — iteration 0's rank step finished, its process step still
running — no process step is completed, so the claimed sum is empty
(zero seconds); the code nevertheless returns 5 because `max_step`
defaults to offset 0 and the completed rank step is counted. -/
theorem compute_job_time_counts_rank_without_process :
    computeJobTime [⟨.completed, 0, 5⟩, ⟨.running, 0, 0⟩] = some 5 ∧
    claimElapsed [⟨.completed, 0, 5⟩, ⟨.running, 0, 0⟩] = 0 ∧
    computeJobTime [⟨.completed, 0, 5⟩, ⟨.running, 0, 0⟩] ≠
      some (claimElapsed [⟨.completed, 0, 5⟩, ⟨.running, 0, 0⟩]) := by
  refine ⟨by decide, by decide, by decide⟩

/-- Embedding of Python's `list.insert(idx, v)`: insert before position
`idx`, appending when `idx` exceeds the length. -/
def insertAt : Nat → Int → List Int → List Int
  | 0, v, l => v :: l
  | _ + 1, v, [] => [v]
  | n + 1, v, a :: l => a :: insertAt n v l

/-- Embedding of the padding loop of `compute_penalty` (grader.py lines
163-165): `for index, line in enumerate(...): ranks.insert(index, v)`. -/
def insertLoop : List Int → Nat → List Int → List Int
  | [], _, ranks => ranks
  | v :: t, idx, ranks => insertLoop t (idx + 1) (insertAt idx v ranks)

/-- The `ranks` list of `compute_penalty`: start from `[-1] * num_rank`
(`-1` is not a real node identifier) and insert the produced entries at
the front positions. -/
def buildRanks (produced : List Int) (numRank : Nat) : List Int :=
  insertLoop produced 0 (List.replicate numRank (-1))

/-- Penalty contributed by one produced entry at position `actual`
(grader.py lines 169-179): `(actual - expected)**2` where `expected` is
the entry's first index in the solution list, or `max_diff**2` when
`sols.index` raises `ValueError` (entry absent). -/
def entryPenalty (sols : List Int) (maxDiff : Nat) (actual : Nat) (node : Int) : Int :=
  match sols.findIdx? (fun x => decide (x = node)) with
  | some expected => ((actual : Int) - (expected : Int)) ^ 2
  | none => ((maxDiff : Nat) : Int) ^ 2

/-- The accumulation loop of `compute_penalty` (grader.py lines 167-179):
`for (actual, node) in enumerate(ranks[:num_rank])`, starting at position
`actual`. -/
def sumSqFrom (sols : List Int) (maxDiff : Nat) : Nat → List Int → Int
  | _, [] => 0
  | actual, v :: t =>
    entryPenalty sols maxDiff actual v + sumSqFrom sols maxDiff (actual + 1) t

/-- Result of `compute_penalty`: `undef` models the `None` returned when
the job is not done, `confError` models an assertion failure on the
solution-size bounds, and `penalty v` is a computed penalty. -/
inductive PenaltyResult
  | undef
  | confError
  | penalty (v : Int)
deriving DecidableEq

/-- Embedding of `compute_penalty` (grader.py lines 122-181).  `done`
abstracts the `is_done` test, `sols` the solution file contents, and
`produced` the parsed student ranking read from the object store. -/
def compute_penalty (done : Bool) (sols produced : List Int)
    (multiplier numRank maxDiff : Nat) : PenaltyResult :=
  if done = false then .undef
  else if numRank ≤ sols.length then
    if sols.length ≤ maxDiff then
      .penalty (((multiplier : Nat) : Int) *
        sumSqFrom sols maxDiff 0 ((buildRanks produced numRank).take numRank))
    else .confError
  else .confError

/-- The penalty formula as the claim words it: the sum over the first
`numRank` padded produced entries, paired with their positions, of the
per-entry squared difference (or the maximal `maxDiff²` for an entry
absent from the reference ranking). -/
def specSumSq (sols : List Int) (maxDiff : Nat) (entries : List Int) : Int :=
  ((entries.enum.map (fun p => entryPenalty sols maxDiff p.1 p.2))).sum

theorem insertAt_eq (v : Int) :
    ∀ (k : Nat) (r : List Int), k ≤ r.length →
      insertAt k v r = r.take k ++ v :: r.drop k
  | 0, r, _ => by simp [insertAt]
  | k + 1, [], h => by simp at h
  | k + 1, a :: r, h => by
    simp only [insertAt, List.take_succ_cons, List.drop_succ_cons, List.cons_append,
      List.cons.injEq, true_and]
    exact insertAt_eq v k r (by simpa using h)

theorem insertLoop_eq :
    ∀ (l : List Int) (k : Nat) (r : List Int), k ≤ r.length →
      insertLoop l k r = r.take k ++ l ++ r.drop k
  | [], k, r, h => by simp [insertLoop]
  | v :: t, k, r, h => by
    rw [insertLoop, insertAt_eq v k r h,
      insertLoop_eq t (k + 1) (r.take k ++ v :: r.drop k)
        (by simp [List.length_take, List.length_drop]; omega)]
    have htake : (r.take k ++ v :: r.drop k).take (k + 1) = r.take k ++ [v] := by
      have hlen : (r.take k).length = k := List.length_take_of_le h
      rw [List.take_append_eq_append_take, List.take_of_length_le (by omega), hlen]
      simp
    have hdrop : (r.take k ++ v :: r.drop k).drop (k + 1) = r.drop k := by
      have hlen : (r.take k).length = k := List.length_take_of_le h
      rw [List.drop_append_eq_append_drop, List.drop_of_length_le (by omega), hlen]
      simp
    rw [htake, hdrop]
    simp

theorem buildRanks_eq (produced : List Int) (numRank : Nat) :
    buildRanks produced numRank = produced ++ List.replicate numRank (-1) := by
  rw [buildRanks, insertLoop_eq produced 0 _ (Nat.zero_le _)]
  simp

theorem sumSqFrom_eq_enumFrom (sols : List Int) (maxDiff : Nat) :
    ∀ (l : List Int) (k : Nat),
      sumSqFrom sols maxDiff k l =
        ((l.enumFrom k).map (fun p => entryPenalty sols maxDiff p.1 p.2)).sum
  | [], k => by simp [sumSqFrom]
  | v :: t, k => by
    simp only [sumSqFrom, List.enumFrom_cons, List.map_cons, List.sum_cons]
    rw [sumSqFrom_eq_enumFrom sols maxDiff t (k + 1)]

/-- C3: under the size precondition, the penalty is the multiplier times
the positional sum of squared rank differences over the first `numRank`
produced entries (padded with the absent sentinel `-1`), with `maxDiff²`
accumulated for entries absent from the reference ranking. -/
theorem compute_penalty_sum_sq_spec (sols produced : List Int)
    (multiplier numRank maxDiff : Nat)
    (h1 : numRank ≤ sols.length) (h2 : sols.length ≤ maxDiff) :
    compute_penalty true sols produced multiplier numRank maxDiff =
      .penalty (((multiplier : Nat) : Int) *
        specSumSq sols maxDiff ((produced ++ List.replicate numRank (-1)).take numRank)) := by
  rw [compute_penalty, if_neg (by simp), if_pos h1, if_pos h2, buildRanks_eq]
  rw [specSumSq, List.enum, ← sumSqFrom_eq_enumFrom]

/-- C3 (witness, spec Scenario B): reference ranking `[10,20,30,40]`,
`topN = 4`, produced `[20,10,30,40]` — squared-diff sum `1+1+0+0 = 2`,
penalty `30 × 2 = 60` with the default multiplier 30. -/
theorem compute_penalty_sum_sq_spec_witness :
    (4 ≤ ([10, 20, 30, 40] : List Int).length ∧
      ([10, 20, 30, 40] : List Int).length ≤ 1000) ∧
    compute_penalty true [10, 20, 30, 40] [20, 10, 30, 40] 30 4 1000 =
      .penalty 60 := by
  refine ⟨⟨by decide, by decide⟩, ?_⟩
  rw [compute_penalty_sum_sq_spec [10, 20, 30, 40] [20, 10, 30, 40] 30 4 1000
    (by decide) (by decide)]
  decide

/-- C7: `compute_penalty` returns the undefined result whenever the job
is not yet done (computing no penalty), and — when the job is done —
signals a configuration error exactly when the reference ranking's size
violates `numRank ≤ len(sols) ≤ maxDiff`. -/
theorem compute_penalty_guards (done : Bool) (sols produced : List Int)
    (multiplier numRank maxDiff : Nat) :
    (done = false →
      compute_penalty done sols produced multiplier numRank maxDiff = .undef) ∧
    (done = true →
      (compute_penalty done sols produced multiplier numRank maxDiff = .confError ↔
        ¬(numRank ≤ sols.length ∧ sols.length ≤ maxDiff))) := by
  constructor
  · intro h
    simp [compute_penalty, h]
  · intro h
    subst h
    rw [compute_penalty, if_neg (by simp)]
    by_cases h1 : numRank ≤ sols.length
    · by_cases h2 : sols.length ≤ maxDiff
      · simp [h1, h2]
      · simp [h1, h2]
    · simp [h1]

theorem compute_penalty_guards_witness :
    compute_penalty false [1] [2] 30 1 5 = .undef ∧
    compute_penalty true [1] [2] 30 2 5 = .confError :=
  ⟨(compute_penalty_guards false [1] [2] 30 1 5).1 rfl,
    ((compute_penalty_guards true [1] [2] 30 2 5).2 rfl).mpr (by decide)⟩

/-- Overall job-flow state, as listed in the `describe()` documentation
(rankmaniac.py lines 279-285). -/
inductive JobState
  | starting
  | running
  | waiting
  | shuttingDown
  | completed
  | failed
  | terminated
deriving DecidableEq

/-- Modelled from the spec: manage.py line 249 calls `job.is_alive()`,
but neither rankmaniac.py nor grader.py in src/ defines an `is_alive`
method.  Spec section 4.3 specifies it as "true unless the remote job's
overall state is a terminal failure/termination state", the terminal
failure/termination states among the documented overall states being
`FAILED` and `TERMINATED`. -/
def is_alive (st : JobState) : Bool :=
  !(st = JobState.failed || st = JobState.terminated)

/-- C6: `is_alive` returns true exactly when the remote job's overall
state is neither of the terminal failure/termination states. -/
theorem is_alive_terminal_states (st : JobState) :
    is_alive st = true ↔ (st ≠ JobState.failed ∧ st ≠ JobState.terminated) := by
  cases st <;> simp [is_alive]

/-- What one visit of the grading sweep observes for a team: its job
reports done (`is_done()` true), dead (`is_alive()` false), still alive,
or the processing of the team raises an unexpected exception. -/
inductive Visit
  | done
  | dead
  | alive
  | raises
deriving DecidableEq

/-- Outcome recorded on the scoreboard for one team during the sweep:
`success` for `record_submission_time`, `invalid` for
`record_invalid_submission` (also used by the generic exception
handler). -/
inductive Outcome
  | success
  | invalid
deriving DecidableEq

/-- State of the `handle_grade` waiting loop (manage.py lines 228-270):
the working list `team_ids`, the cursor `i`, and the outcomes recorded so
far. -/
structure SweepState where
  teams : List String
  cursor : Nat
  recorded : List (String × Outcome)
deriving DecidableEq

/-- Result of running the sweep: it finishes with the working list empty,
crashes with an uncaught `IndexError` (raised by `team_ids[i]` at the top
of the loop body, outside the per-team `try`), or is still running when
the step budget runs out. -/
inductive SweepResult
  | finished (recorded : List (String × Outcome))
  | crashed (recorded : List (String × Outcome))
  | outOfFuel (s : SweepState)
deriving DecidableEq

/-- Embedding of the `while len(team_ids) > 0` loop of `handle_grade`
(manage.py lines 228-270), with each team's per-visit observation given
by `beh`.  On `done`: pop at the cursor and record a success.  On `dead`:
pop and record an invalid submission.  On `alive`: advance the cursor
round-robin (`i += 1; i %= len(team_ids)`).  On an unexpected exception:
the generic handler pops at the cursor and records an invalid submission.
Indexing `team_ids[i]` out of range raises an `IndexError` that no inner
handler catches, aborting the whole sweep. -/
def sweepRun (beh : String → Visit) : Nat → SweepState → SweepResult
  | 0, s => .outOfFuel s
  | fuel + 1, s =>
    if s.teams.isEmpty then .finished s.recorded
    else
      match s.teams.get? s.cursor with
      | none => .crashed s.recorded
      | some t =>
        match beh t with
        | .done =>
          sweepRun beh fuel
            ⟨s.teams.eraseIdx s.cursor, s.cursor, s.recorded ++ [(t, .success)]⟩
        | .dead =>
          sweepRun beh fuel
            ⟨s.teams.eraseIdx s.cursor, s.cursor, s.recorded ++ [(t, .invalid)]⟩
        | .raises =>
          sweepRun beh fuel
            ⟨s.teams.eraseIdx s.cursor, s.cursor, s.recorded ++ [(t, .invalid)]⟩
        | .alive =>
          sweepRun beh fuel ⟨s.teams, (s.cursor + 1) % s.teams.length, s.recorded⟩

/-- Behaviour exhibiting the sweep bug: team `A`'s job stays alive, team
`B`'s processing raises an unexpected exception. -/
def behAB : String → Visit :=
  fun t => if t = "B" then .raises else .alive

/-- C5 (code bug): sweeping `[A, B]` where `A` stays alive and `B` raises
on its first visit, the exception handler records `B` as invalid and pops
index 1; the next loop iteration evaluates `team_ids[1]` on the remaining
one-element list, raising an uncaught `IndexError` that aborts the whole
sweep — `A` never receives a recorded outcome, contradicting the claimed
isolation guarantee. -/
theorem handle_grade_sweep_crash_bug :
    sweepRun behAB 6 ⟨["A", "B"], 0, []⟩ = .crashed [("B", .invalid)] ∧
    "A" ∉ ([("B", Outcome.invalid)]).map Prod.fst := by
  refine ⟨by decide, by decide⟩

/-- A streaming step as built by `_make_step` (rankmaniac.py lines
360-377): mapper, reducer, input and output locations (each prefixed
with the team's S3 URL) and the task counts. -/
structure StreamStep where
  mapper : String
  reducer : String
  input : String
  output : String
  nm : Nat
  nr : Nat
deriving DecidableEq

/-- Embedding of `_get_s3_url` (rankmaniac.py lines 379-381). -/
def s3url (bucket team : String) : String :=
  "s3n://" ++ bucket ++ "/" ++ team ++ "/"

/-- Embedding of `_make_step` (rankmaniac.py lines 360-377); the
object-store clearing of the output location is an external effect not
reflected in the returned step. -/
def make_step (bucket team mapper reducer input output : String)
    (nm nr : Nat) : StreamStep :=
  ⟨s3url bucket team ++ mapper, s3url bucket team ++ reducer,
    s3url bucket team ++ input, s3url bucket team ++ output, nm, nr⟩

/-- Mutable state of a `Rankmaniac` object: the remote job handle
`job_id`, the iteration counter `_iter_no`, the configured `_infile` and
the `_last_outdir`.  Two ghost fields record externally visible history:
`terminatedJobs` lists the job handles for which remote termination was
requested, and `log` lists the (rank step, process step) pairs built by
`do_iter` since the job was created (cleared on terminate, when the job
they belong to ceases to exist). -/
structure RMState where
  job_id : Option Nat
  iter_no : Nat
  infile : Option String
  last_outdir : Option String
  terminatedJobs : List Nat
  log : List (StreamStep × StreamStep)
deriving DecidableEq

/-- The state set up by the constructor via `_reset` (rankmaniac.py lines
71-83). -/
def initState : RMState := ⟨none, 0, none, none, [], []⟩

/-- Errors raised by the wrapper: `RankmaniacError('A job is already
running.')`, `RankmaniacError('No job is running.')`, and the `TypeError`
Python raises in `_make_step` when the chosen pagerank input is `None`
(string concatenation with `None`). -/
inductive RMError
  | alreadyRunning
  | notRunning
  | badInput
deriving DecidableEq

/-- Embedding of `set_infile` (rankmaniac.py lines 150-159). -/
def set_infile (s : RMState) (filename : String) : Except RMError RMState :=
  if s.job_id.isSome then .error .alreadyRunning
  else .ok ⟨s.job_id, s.iter_no, some filename, s.last_outdir, s.terminatedJobs, s.log⟩

/-- Arguments of one `do_iter` call (rankmaniac.py lines 161-164):
mapper/reducer programs, optional explicit output directories, and the
pagerank task counts. -/
structure DoIterArgs where
  prMapper : String
  prReducer : String
  procMapper : String
  procReducer : String
  pagerank_output : Option String
  process_output : Option String
  nm : Nat
  nr : Nat
deriving DecidableEq

/-- Embedding of `do_iter` (rankmaniac.py lines 161-205).  `newJob` is
the job handle the remote service would return from `run_jobflow` if a
new job is submitted.  On iteration 0 the pagerank input is the
configured infile, afterwards the stored last output directory; the
process step's input is the pagerank step's output; defaulted output
directories are `{iter_no}/pagerank/` and `{iter_no}/process/`; finally
the state records the process output directory and increments the
iteration counter. -/
def do_iter (bucket team : String) (newJob : Nat) (a : DoIterArgs)
    (s : RMState) : Except RMError RMState :=
  let pinput? := if s.iter_no = 0 then s.infile else s.last_outdir
  match pinput? with
  | none => .error .badInput
  | some pagerank_input =>
    let pagerank_output :=
      a.pagerank_output.getD (get_default_outdir "pagerank" (s.iter_no : Int))
    let process_input := pagerank_output
    let process_output :=
      a.process_output.getD (get_default_outdir "process" (s.iter_no : Int))
    let prStep := make_step bucket team a.prMapper a.prReducer
      pagerank_input pagerank_output a.nm a.nr
    let procStep := make_step bucket team a.procMapper a.procReducer
      process_input process_output 1 1
    .ok ⟨some (s.job_id.getD newJob), s.iter_no + 1, s.infile, some process_output,
      s.terminatedJobs, s.log ++ [(prStep, procStep)]⟩

/-- Embedding of `terminate` (rankmaniac.py lines 231-242): requires a
running job, requests remote termination of it, clears the handle and
calls `_reset`. -/
def terminate (s : RMState) : Except RMError RMState :=
  match s.job_id with
  | none => .error .notRunning
  | some j => .ok ⟨none, 0, none, none, s.terminatedJobs ++ [j], []⟩

/-- One public operation applied to a `Rankmaniac` object. -/
inductive Op
  | setInfile (filename : String)
  | doIter (newJob : Nat) (a : DoIterArgs)
  | terminateOp
deriving DecidableEq

/-- Apply one operation; a raised exception leaves the object state
unchanged (all mutations in the source happen after the raise points). -/
def execOp (bucket team : String) (s : RMState) : Op → RMState
  | .setInfile f =>
    match set_infile s f with
    | .ok s' => s'
    | .error _ => s
  | .doIter j a =>
    match do_iter bucket team j a s with
    | .ok s' => s'
    | .error _ => s
  | .terminateOp =>
    match terminate s with
    | .ok s' => s'
    | .error _ => s

/-- Run a sequence of public operations from the freshly constructed
state. -/
def execTrace (bucket team : String) (trace : List Op) : RMState :=
  trace.foldl (execOp bucket team) initState

/-- Placeholder iteration plan for the `getD`/`headD` defaults. -/
def dummyPlan : StreamStep × StreamStep :=
  (⟨"", "", "", "", 0, 0⟩, ⟨"", "", "", "", 0, 0⟩)

/-- Invariant tying together the fields of a reachable `RMState`. -/
structure GoodState (bucket team : String) (s : RMState) : Prop where
  iterLen : s.iter_no = s.log.length
  jobLog : s.job_id.isSome = true ↔ s.log ≠ []
  outdirIter : s.last_outdir.isSome = true ↔ 0 < s.iter_no
  headIn : s.log ≠ [] → ∃ f, s.infile = some f ∧
    ((s.log.headD dummyPlan).1).input = s3url bucket team ++ f
  lastOut : ∀ raw, s.last_outdir = some raw →
    s3url bucket team ++ raw = ((s.log.getD (s.log.length - 1) dummyPlan).2).output
  chain : ∀ i, i + 1 < s.log.length →
    ((s.log.getD (i + 1) dummyPlan).1).input = ((s.log.getD i dummyPlan).2).output

theorem getD_append_left {α : Type} (l l' : List α) (d : α) (n : Nat)
    (h : n < l.length) : (l ++ l').getD n d = l.getD n d := by
  simp [List.getElem?_append_left h]

theorem getD_concat_self {α : Type} (l : List α) (x : α) (d : α) :
    (l ++ [x]).getD l.length d = x := by
  simp [List.getElem?_append_right (Nat.le_refl l.length)]

theorem headD_append_left {α : Type} (l l' : List α) (d : α) (h : l ≠ []) :
    (l ++ l').headD d = l.headD d := by
  cases l with
  | nil => exact absurd rfl h
  | cons a t => simp

theorem goodState_init (bucket team : String) : GoodState bucket team initState := by
  refine ⟨rfl, by simp [initState], by simp [initState], ?_, ?_, ?_⟩
  · intro h
    exact absurd rfl h
  · intro raw hraw
    simp [initState] at hraw
  · intro i hi
    simp [initState] at hi

theorem goodState_execOp (bucket team : String) (s : RMState) (op : Op)
    (hg : GoodState bucket team s) : GoodState bucket team (execOp bucket team s op) := by
  cases op with
  | setInfile f =>
    cases hjob : s.job_id with
    | some j =>
      simp only [execOp, set_infile, hjob, Option.isSome_some, if_true]
      exact hg
    | none =>
      simp only [execOp, set_infile, hjob, Option.isSome_none, Bool.false_eq_true,
        if_false]
      have hlog : s.log = [] := by
        by_contra hne
        have := hg.jobLog.mpr hne
        rw [hjob] at this
        simp at this
      refine ⟨hg.iterLen, ?_, hg.outdirIter, ?_, hg.lastOut, hg.chain⟩
      · simpa [hjob] using hg.jobLog
      · intro h
        exact absurd hlog h
  | terminateOp =>
    cases hjob : s.job_id with
    | none =>
      simp only [execOp, terminate, hjob]
      exact hg
    | some j =>
      simp only [execOp, terminate, hjob]
      refine ⟨rfl, by simp, by simp, ?_, ?_, ?_⟩
      · intro h
        exact absurd rfl h
      · intro raw hraw
        simp at hraw
      · intro i hi
        simp at hi
  | doIter j a =>
    by_cases h0 : s.iter_no = 0
    · cases hinf : s.infile with
      | none =>
        simp only [execOp, do_iter, h0, if_true, hinf]
        exact hg
      | some f =>
        have hlog : s.log = [] := List.length_eq_zero.mp (h0 ▸ hg.iterLen).symm
        simp only [execOp, do_iter, h0, if_true, hinf, hlog, List.nil_append]
        refine ⟨by simp, by simp, by simp, ?_, ?_, ?_⟩
        · intro _
          exact ⟨f, rfl, rfl⟩
        · intro raw hraw
          simp only [Option.some.injEq] at hraw
          subst hraw
          rfl
        · intro i hi
          simp at hi
    · cases hout : s.last_outdir with
      | none =>
        have h1 : (if s.iter_no = 0 then s.infile else s.last_outdir) = none := by
          rw [if_neg h0, hout]
        simp only [execOp, do_iter, h1]
        exact hg
      | some raw =>
        have h1 : (if s.iter_no = 0 then s.infile else s.last_outdir) = some raw := by
          rw [if_neg h0, hout]
        have hlognil : s.log ≠ [] := by
          intro hnil
          rw [hg.iterLen, hnil] at h0
          exact h0 rfl
        have hl := hg.lastOut raw hout
        simp only [execOp, do_iter, h1]
        refine ⟨by simp [hg.iterLen], by simp, by simp, ?_, ?_, ?_⟩
        · intro _
          obtain ⟨f, hf, hh⟩ := hg.headIn hlognil
          refine ⟨f, hf, ?_⟩
          rw [headD_append_left _ _ _ hlognil]
          exact hh
        · intro raw' hraw'
          simp only [Option.some.injEq] at hraw'
          subst hraw'
          have hlen : (s.log ++ [(make_step bucket team a.prMapper a.prReducer raw
              (a.pagerank_output.getD (get_default_outdir "pagerank" (s.iter_no : Int)))
              a.nm a.nr,
            make_step bucket team a.procMapper a.procReducer
              (a.pagerank_output.getD (get_default_outdir "pagerank" (s.iter_no : Int)))
              (a.process_output.getD (get_default_outdir "process" (s.iter_no : Int)))
              1 1)]).length - 1 = s.log.length := by
            simp
          rw [hlen, getD_concat_self]
          rfl
        · intro i hi
          simp only [List.length_append, List.length_cons, List.length_nil] at hi
          by_cases hcase : i + 1 < s.log.length
          · rw [getD_append_left _ _ _ _ hcase, getD_append_left _ _ _ _ (by omega)]
            exact hg.chain i hcase
          · have hieq : i + 1 = s.log.length := by omega
            have hipos : i < s.log.length := by omega
            rw [hieq, getD_concat_self, getD_append_left _ _ _ _ hipos]
            have hieq2 : i = s.log.length - 1 := by omega
            rw [hieq2, ← hl]
            rfl

theorem goodState_foldl (bucket team : String) :
    ∀ (trace : List Op) (s : RMState), GoodState bucket team s →
      GoodState bucket team (trace.foldl (execOp bucket team) s)
  | [], _, hg => hg
  | op :: trace, s, hg =>
    goodState_foldl bucket team trace (execOp bucket team s op)
      (goodState_execOp bucket team s op hg)

theorem goodState_execTrace (bucket team : String) (trace : List Op) :
    GoodState bucket team (execTrace bucket team trace) :=
  goodState_foldl bucket team trace initState (goodState_init bucket team)

/-- C8: in every state reachable by a sequence of public operations, the
rank step of the job's iteration 0 reads the configured input location,
and the rank step of every later iteration reads exactly the output
location of the previous iteration's process step. -/
theorem do_iter_input_wiring (bucket team : String) (trace : List Op) :
    ((execTrace bucket team trace).log ≠ [] →
      ∃ f, (execTrace bucket team trace).infile = some f ∧
        (((execTrace bucket team trace).log.headD dummyPlan).1).input =
          s3url bucket team ++ f) ∧
    (∀ i, i + 1 < (execTrace bucket team trace).log.length →
      (((execTrace bucket team trace).log.getD (i + 1) dummyPlan).1).input =
        (((execTrace bucket team trace).log.getD i dummyPlan).2).output) :=
  ⟨(goodState_execTrace bucket team trace).headIn,
    (goodState_execTrace bucket team trace).chain⟩

theorem do_iter_input_wiring_witness :
    (0 + 1 <
      (execTrace "bkt" "team"
        [.setInfile "input.txt",
         .doIter 7 ⟨"pm.py", "pr.py", "qm.py", "qr.py", none, none, 1, 1⟩,
         .doIter 7 ⟨"pm.py", "pr.py", "qm.py", "qr.py", none, none, 1, 1⟩]).log.length) ∧
    (((execTrace "bkt" "team"
        [.setInfile "input.txt",
         .doIter 7 ⟨"pm.py", "pr.py", "qm.py", "qr.py", none, none, 1, 1⟩,
         .doIter 7 ⟨"pm.py", "pr.py", "qm.py", "qr.py", none, none, 1, 1⟩]).log.getD
          (0 + 1) dummyPlan).1).input =
      (((execTrace "bkt" "team"
        [.setInfile "input.txt",
         .doIter 7 ⟨"pm.py", "pr.py", "qm.py", "qr.py", none, none, 1, 1⟩,
         .doIter 7 ⟨"pm.py", "pr.py", "qm.py", "qr.py", none, none, 1, 1⟩]).log.getD
          0 dummyPlan).2).output :=
  ⟨by decide,
    (do_iter_input_wiring "bkt" "team"
      [.setInfile "input.txt",
       .doIter 7 ⟨"pm.py", "pr.py", "qm.py", "qr.py", none, none, 1, 1⟩,
       .doIter 7 ⟨"pm.py", "pr.py", "qm.py", "qr.py", none, none, 1, 1⟩]).2 0 (by decide)⟩

/-- C9: in every reachable state, the last output location is defined
exactly when the iteration number is positive. -/
theorem last_outdir_iff_iter_pos (bucket team : String) (trace : List Op) :
    (execTrace bucket team trace).last_outdir ≠ none ↔
      0 < (execTrace bucket team trace).iter_no := by
  rw [← (goodState_execTrace bucket team trace).outdirIter]
  cases (execTrace bucket team trace).last_outdir <;> simp

/-- C10: terminating with an active job requests remote termination of
that job and resets every mutable field: the handle, the iteration
counter, the configured input file and the last output location. -/
theorem terminate_resets_state (s : RMState) (j : Nat) (h : s.job_id = some j) :
    terminate s =
      .ok ⟨none, 0, none, none, s.terminatedJobs ++ [j], []⟩ := by
  rw [terminate, h]

theorem terminate_resets_state_witness :
    (⟨some 5, 2, some "data.txt", some "1/process/", [], []⟩ : RMState).job_id =
        some 5 ∧
    terminate ⟨some 5, 2, some "data.txt", some "1/process/", [], []⟩ =
      .ok ⟨none, 0, none, none, [5], []⟩ :=
  ⟨rfl, terminate_resets_state ⟨some 5, 2, some "data.txt", some "1/process/", [], []⟩ 5 rfl⟩

end Rankmaniac
